import Mathlib

/-!
Verification development for the core of the xitorch/lintorch repository:
the parameter-deduplication / editable-object protocol
(`lintorch/core/editable_module.py`) and the adjoint differentiation engine
around `solve_ivp` (`xitorch/integrate/solve_ivp.py`).

Python tensors are modelled by an abstract type with decidable equality;
equality of model values corresponds to Python object identity (`id(x) == id(y)`),
which is the notion the deduplication code works with.  Fallible Python
operations (list indexing, dict lookup, attribute access) are modelled with
`Option`/`Except` over an explicit error type mirroring the Python exception
that would be raised.
-/

/-- Python exceptions that the modelled code can raise. -/
inductive PyErr where
  | indexError
  | attributeError
  | nameError
  | keyError (k : String)
  | runtimeError (msg : String)
deriving Repr, DecidableEq

namespace EditableModule

variable {β : Type} [DecidableEq β]

/-- Model of Python `list.index`: the index of the first occurrence of `p`
in `xs`, or `none` when `p` is absent (Python raises `ValueError`). -/
def pyIndex (xs : List β) (p : β) : Option Nat :=
  match xs with
  | [] => none
  | x :: rest => if x = p then some 0 else (pyIndex rest p).map (· + 1)

/-- The loop body of `EditableModule._get_unique_params_idxs`
(editable_module.py lines 63-76): scan the parameters in order; a parameter
whose identity was already seen is appended to that identity's alias group,
otherwise a new group is opened.  `i` is the position of the head of `ps`
in the full parameter list. -/
def buildLoop (ps : List β) (i : Nat) (ids : List β) (idxs : List Nat)
    (maps : List (List Nat)) : List β × List Nat × List (List Nat) :=
  match ps with
  | [] => (ids, idxs, maps)
  | p :: rest =>
    match pyIndex ids p with
    | some j => buildLoop rest (i + 1) ids idxs (maps.set j (maps.getD j [] ++ [i]))
    | none => buildLoop rest (i + 1) (ids ++ [p]) (idxs ++ [i]) (maps ++ [[i]])

/-- The per-`(object, methodname)` cache written by
`_get_unique_params_idxs`: `idxs` = `self._unique_params_idxs[methodname]`
(first-occurrence positions), `maps` = `self._unique_params_maps[methodname]`
(alias groups), `nparams` = `self._number_of_params[methodname]`. -/
structure UCache (β : Type) where
  idxs : List Nat
  maps : List (List Nat)
  nparams : Nat
deriving Repr, DecidableEq

/-- `_get_unique_params_idxs(methodname, allparams)` on a cache miss. -/
def mkCache (ps : List β) : UCache β :=
  let r := buildLoop ps 0 [] [] []
  ⟨r.2.1, r.2.2, ps.length⟩

/-- The state of an `EditableModule` for one fixed `(object, methodname)`
pair.  `allparams` is the object's internal parameter storage, as enumerated
by a conforming `getparams`/`setparams` implementation (abstract methods in
the source; the spec requires `setparams` to write the given tensors back in
the same order `getparams` enumerates them).  `cache` is the lazily created
dedup cache. -/
structure ModState (β : Type) where
  allparams : List β
  cache : Option (UCache β)
deriving Repr, DecidableEq

/-- `getparams(methodname)` of a conforming module: the ordered parameter
list the operation consumes. -/
def getparams (s : ModState β) : List β := s.allparams

/-- `setparams(methodname, *params)` of a conforming module: store the given
parameters in order and return how many were consumed. -/
def setparams (s : ModState β) (ps : List β) : ModState β × Nat :=
  ({ s with allparams := ps }, ps.length)

/-- `_get_unique_params_idxs(methodname, allparams)` (lines 48-81): return
the cached first-occurrence indices, computing and storing the cache on the
first call. -/
def getUniqueParamsIdxs (s : ModState β) : List Nat × ModState β :=
  match s.cache with
  | some c => (c.idxs, s)
  | none =>
    let c := mkCache (getparams s)
    (c.idxs, { s with cache := some c })

/-- Python `[xs[i] for i in idxs]` with fallible indexing. -/
def pyGetItems (xs : List β) (idxs : List Nat) : Except PyErr (List β) :=
  match idxs with
  | [] => .ok []
  | i :: rest =>
    match xs[i]? with
    | none => .error .indexError
    | some x =>
      match pyGetItems xs rest with
      | .error e => .error e
      | .ok ys => .ok (x :: ys)

/-- `getuniqueparams(methodname)` (lines 30-33): one representative per
alias group, in first-occurrence order.  Also returns the possibly updated
state (the first call populates the cache). -/
def getuniqueparams (s : ModState β) : Except PyErr (List β × ModState β) :=
  let allparams := getparams s
  let r := getUniqueParamsIdxs s
  match pyGetItems allparams r.1 with
  | .error e => .error e
  | .ok ups => .ok (ups, r.2)

/-- Python `xs[i] = a` on a list (IndexError when out of range). -/
def pySetItem {γ : Type} (xs : List γ) (i : Nat) (a : γ) : Except PyErr (List γ) :=
  if i < xs.length then .ok (xs.set i a) else .error .indexError

/-- Inner loop of `setuniqueparams` (lines 43-44): `for i in jmap:
allparams[i] = p`. -/
def scatterGroup {γ : Type} (xs : List γ) (jmap : List Nat) (p : γ) :
    Except PyErr (List γ) :=
  match jmap with
  | [] => .ok xs
  | i :: rest =>
    match pySetItem xs i p with
    | .error e => .error e
    | .ok xs2 => scatterGroup xs2 rest p

/-- Outer loop of `setuniqueparams` (lines 40-44): `for j in
range(len(uniqueparams)): jmap = maps[j]; ...`; indexing `maps[j]` past the
end raises IndexError. -/
def scatterAll {γ : Type} (xs : List γ) (maps : List (List Nat)) (ups : List γ) :
    Except PyErr (List γ) :=
  match ups with
  | [] => .ok xs
  | p :: ups' =>
    match maps with
    | [] => .error .indexError
    | jmap :: maps' =>
      match scatterGroup xs jmap p with
      | .error e => .error e
      | .ok xs2 => scatterAll xs2 maps' ups'

/-- `setuniqueparams(methodname, *uniqueparams)` (lines 35-46): build a
fresh length-`nparams` list initialised with `None` (modelled by the
designated value `d`), write each supplied unique parameter into every
position of its alias group, and delegate to `setparams`.  Accessing the
caches before `_get_unique_params_idxs` ever ran raises AttributeError. -/
def setuniqueparams (d : β) (s : ModState β) (ups : List β) :
    Except PyErr (ModState β × Nat) :=
  match s.cache with
  | none => .error .attributeError
  | some c =>
    match scatterAll (List.replicate c.nparams d) c.maps ups with
    | .error e => .error e
    | .ok ps => .ok (setparams s ps)

/-- `useparams(methodname, *params)` (lines 83-92), a `@contextmanager`
generator, together with the `contextlib` protocol around it.  `body` models
the code block executed under the `with` statement: it may read and write
the object's state and may raise (second component `some e`); `useparams`
returns the state after the whole construct together with the exception the
caller observes, if any.

Control flow mirrored from the source and the `contextlib` semantics:
* an exception in `getuniqueparams` (before `_orig_params_` is bound) is
  caught and traced, after which the `finally` block raises `NameError`;
* an exception in the substituting `setuniqueparams` is caught and traced
  and the `finally` block restores, but the generator then finishes without
  yielding, so the context manager raises
  `RuntimeError("generator did not yield")`;
* an exception raised by the block is thrown into the generator at `yield`,
  caught by `except Exception` and traced - never re-raised - and `finally`
  restores the original unique parameters. -/
def useparams {ε : Type} (d : β) (s : ModState β) (newps : List β)
    (body : ModState β → ModState β × Option ε) :
    ModState β × Option (PyErr ⊕ ε) :=
  match getuniqueparams s with
  | .error _ => (s, some (Sum.inl PyErr.nameError))
  | .ok (origParams, s1) =>
    match setuniqueparams d s1 newps with
    | .error _ =>
      match setuniqueparams d s1 origParams with
      | .ok (s2, _) => (s2, some (Sum.inl (PyErr.runtimeError "generator did not yield")))
      | .error e => (s1, some (Sum.inl e))
    | .ok (s2, _) =>
      let r := body s2
      match setuniqueparams d r.1 origParams with
      | .ok (s3, _) => (s3, none)
      | .error e => (r.1, some (Sum.inl e))

/-- Well-formedness of a module state: the dedup cache is either not yet
created or was created from the current parameter layout.  This is the
invariant stated in the spec (the cache "is stable across calls as long as
the object's parameter layout does not change"). -/
def CacheWF (s : ModState β) : Prop :=
  s.cache = none ∨ s.cache = some (mkCache s.allparams)

instance (s : ModState β) : Decidable (CacheWF s) := by
  unfold CacheWF; infer_instance

/-! Invariant of the dedup-cache construction loop.  `v` gives the parameter
value (identity) at each position of the full parameter list, `n` is the
number of positions processed so far. -/

structure CInv (v : Nat → β) (n : Nat) (ids : List β) (idxs : List Nat)
    (maps : List (List Nat)) : Prop where
  lenIds : ids.length = maps.length
  lenIdxs : idxs.length = maps.length
  nodup : ids.Nodup
  headEq : ∀ (j : Nat) (jm : List Nat), maps[j]? = some jm → jm.head? = idxs[j]?
  bound : ∀ (j : Nat) (jm : List Nat) (i : Nat), maps[j]? = some jm → i ∈ jm → i < n
  value : ∀ (j : Nat) (jm : List Nat) (i : Nat), maps[j]? = some jm → i ∈ jm →
    ids[j]? = some (v i)
  cover : ∀ i, i < n → ∃ (j : Nat) (jm : List Nat), maps[j]? = some jm ∧ i ∈ jm

theorem pyIndex_some {xs : List β} {p : β} {j : Nat} (h : pyIndex xs p = some j) :
    xs[j]? = some p := by
  induction xs generalizing j with
  | nil => simp [pyIndex] at h
  | cons x rest ih =>
    by_cases hx : x = p
    · simp [pyIndex, hx] at h
      subst h
      simp [hx]
    · simp [pyIndex, hx] at h
      obtain ⟨j', hj', rfl⟩ := h
      simpa using ih hj'

theorem pyIndex_none {xs : List β} {p : β} (h : pyIndex xs p = none) : p ∉ xs := by
  induction xs with
  | nil => simp
  | cons x rest ih =>
    by_cases hx : x = p
    · simp [pyIndex, hx] at h
    · simp [pyIndex, hx] at h
      intro hmem
      rcases List.mem_cons.mp hmem with rfl | hmem
      · exact hx rfl
      · exact ih h hmem

theorem cinv_step_found {v : Nat → β} {n : Nat} {ids : List β} {idxs : List Nat}
    {maps : List (List Nat)} {j0 : Nat}
    (hI : CInv v n ids idxs maps) (hfind : pyIndex ids (v n) = some j0) :
    CInv v (n + 1) ids idxs (maps.set j0 (maps.getD j0 [] ++ [n])) := by
  have hid : ids[j0]? = some (v n) := pyIndex_some hfind
  have hj0ids : j0 < ids.length := by
    by_contra hge
    rw [List.getElem?_eq_none (Nat.le_of_not_lt hge)] at hid
    cases hid
  have hj0 : j0 < maps.length := hI.lenIds ▸ hj0ids
  have hjm0 : maps[j0]? = some (maps.get ⟨j0, hj0⟩) := List.getElem?_eq_getElem hj0
  have hgetD : maps.getD j0 [] = maps.get ⟨j0, hj0⟩ := List.getD_eq_getElem maps [] hj0
  set jm0 := maps.get ⟨j0, hj0⟩ with hjm0def
  have hmaps' : ∀ j, (maps.set j0 (jm0 ++ [n]))[j]? =
      if j0 = j then some (jm0 ++ [n]) else maps[j]? := by
    intro j
    rw [List.getElem?_set]
    by_cases hj : j0 = j
    · simp [hj, hj ▸ hj0]
    · simp [hj]
  refine ⟨?_, ?_, hI.nodup, ?_, ?_, ?_, ?_⟩
  · simpa using hI.lenIds
  · simpa using hI.lenIdxs
  · intro j jm hjm
    rw [hgetD, hmaps' j] at hjm
    by_cases hj : j0 = j
    · simp only [if_pos hj] at hjm
      cases hjm
      have hne : jm0 ≠ [] := by
        intro hnil
        have := hI.headEq j0 jm0 hjm0
        rw [hnil] at this
        have hidx : idxs[j0]? = some (idxs.get ⟨j0, hI.lenIdxs ▸ hj0⟩) :=
          List.getElem?_eq_getElem (hI.lenIdxs ▸ hj0)
        rw [hidx] at this
        simp at this
      rw [← hj]
      rw [List.head?_append_of_ne_nil _ hne]
      exact hI.headEq j0 jm0 hjm0
    · simp only [if_neg hj] at hjm
      exact hI.headEq j jm hjm
  · intro j jm i hjm hi
    rw [hgetD, hmaps' j] at hjm
    by_cases hj : j0 = j
    · simp only [if_pos hj] at hjm
      cases hjm
      rcases List.mem_append.mp hi with hmem | hmem
      · exact Nat.lt_succ_of_lt (hI.bound j0 jm0 i hjm0 hmem)
      · simp at hmem
        omega
    · simp only [if_neg hj] at hjm
      exact Nat.lt_succ_of_lt (hI.bound j jm i hjm hi)
  · intro j jm i hjm hi
    rw [hgetD, hmaps' j] at hjm
    by_cases hj : j0 = j
    · simp only [if_pos hj] at hjm
      cases hjm
      rcases List.mem_append.mp hi with hmem | hmem
      · exact (hj ▸ hI.value j0 jm0 i hjm0 hmem)
      · simp at hmem
        subst hmem
        exact hj ▸ hid
    · simp only [if_neg hj] at hjm
      exact hI.value j jm i hjm hi
  · intro i hi
    rcases Nat.lt_succ_iff_lt_or_eq.mp hi with hlt | heq
    · obtain ⟨j, jm, hjm, hmem⟩ := hI.cover i hlt
      by_cases hj : j0 = j
      · refine ⟨j, jm0 ++ [n], ?_, ?_⟩
        · rw [hgetD, hmaps' j, if_pos hj]
        · subst hj
          rw [hjm0] at hjm
          cases hjm
          exact List.mem_append_left _ hmem
      · exact ⟨j, jm, by rw [hgetD, hmaps' j, if_neg hj]; exact hjm, hmem⟩
    · subst heq
      refine ⟨j0, jm0 ++ [i], ?_, ?_⟩
      · rw [hgetD, hmaps' j0, if_pos rfl]
      · simp

theorem cinv_step_new {v : Nat → β} {n : Nat} {ids : List β} {idxs : List Nat}
    {maps : List (List Nat)}
    (hI : CInv v n ids idxs maps) (hfind : pyIndex ids (v n) = none) :
    CInv v (n + 1) (ids ++ [v n]) (idxs ++ [n]) (maps ++ [[n]]) := by
  have hnotin : v n ∉ ids := pyIndex_none hfind
  have hmapsLen : (maps ++ [[n]]).length = maps.length + 1 := by simp
  have hsplit : ∀ (j : Nat) (jm : List Nat), (maps ++ [[n]])[j]? = some jm →
      (j < maps.length ∧ maps[j]? = some jm) ∨ (j = maps.length ∧ jm = [n]) := by
    intro j jm hjm
    by_cases hj : j < maps.length
    · left
      rw [List.getElem?_append_left hj] at hjm
      · exact ⟨hj, hjm⟩
    · right
      have hle : maps.length ≤ j := Nat.le_of_not_lt hj
      rw [List.getElem?_append_right hle] at hjm
      rcases Nat.lt_or_ge (j - maps.length) 1 with hlt | hge
      · have : j - maps.length = 0 := by omega
        rw [this] at hjm
        simp at hjm
        exact ⟨by omega, hjm.symm⟩
      · rw [List.getElem?_eq_none (by simpa using hge)] at hjm
        cases hjm
  refine ⟨?_, ?_, ?_, ?_, ?_, ?_, ?_⟩
  · simp [hI.lenIds]
  · simp [hI.lenIdxs]
  · refine List.nodup_append.mpr ⟨hI.nodup, List.nodup_singleton _, ?_⟩
    intro a ha hb
    rw [List.mem_singleton] at hb
    subst hb
    exact hnotin ha
  · intro j jm hjm
    rcases hsplit j jm hjm with ⟨hj, hjm'⟩ | ⟨rfl, rfl⟩
    · rw [List.getElem?_append_left (hI.lenIdxs ▸ hj)]
      exact hI.headEq j jm hjm'
    · rw [← hI.lenIdxs, List.getElem?_concat_length]
      simp
  · intro j jm i hjm hi
    rcases hsplit j jm hjm with ⟨hj, hjm'⟩ | ⟨rfl, rfl⟩
    · exact Nat.lt_succ_of_lt (hI.bound j jm i hjm' hi)
    · simp at hi
      omega
  · intro j jm i hjm hi
    rcases hsplit j jm hjm with ⟨hj, hjm'⟩ | ⟨rfl, rfl⟩
    · rw [List.getElem?_append_left (hI.lenIds ▸ hj)]
      exact hI.value j jm i hjm' hi
    · simp at hi
      subst hi
      rw [← hI.lenIds, List.getElem?_concat_length]
  · intro i hi
    rcases Nat.lt_succ_iff_lt_or_eq.mp hi with hlt | heq
    · obtain ⟨j, jm, hjm, hmem⟩ := hI.cover i hlt
      have hj : j < maps.length := by
        by_contra hge
        rw [List.getElem?_eq_none (Nat.le_of_not_lt hge)] at hjm
        cases hjm
      exact ⟨j, jm, by rw [List.getElem?_append_left hj]; exact hjm, hmem⟩
    · subst heq
      exact ⟨maps.length, [i], by rw [List.getElem?_concat_length], by simp⟩

theorem buildLoop_inv {v : Nat → β} (qs : List β) :
    ∀ (n : Nat) (ids : List β) (idxs : List Nat) (maps : List (List Nat)),
    (∀ (k : Nat) (hk : k < qs.length), qs[k] = v (n + k)) →
    CInv v n ids idxs maps →
    CInv v (n + qs.length) (buildLoop qs n ids idxs maps).1
      (buildLoop qs n ids idxs maps).2.1 (buildLoop qs n ids idxs maps).2.2 := by
  induction qs with
  | nil =>
    intro n ids idxs maps hq hI
    simpa [buildLoop] using hI
  | cons p rest ih =>
    intro n ids idxs maps hq hI
    have hp : p = v n := by simpa using hq 0 (by simp)
    subst hp
    have hq2 : ∀ (k : Nat) (hk : k < rest.length), rest[k] = v ((n + 1) + k) := by
      intro k hk
      have h1 := hq (k + 1) (by simpa using Nat.succ_lt_succ hk)
      have h2 : n + (k + 1) = (n + 1) + k := by omega
      rw [h2] at h1
      simpa using h1
    have harith : n + (v n :: rest).length = (n + 1) + rest.length := by
      simp
      omega
    rw [harith]
    simp only [buildLoop]
    cases hfind : pyIndex ids (v n) with
    | some j =>
      exact ih (n + 1) ids idxs (maps.set j (maps.getD j [] ++ [n])) hq2
        (cinv_step_found hI hfind)
    | none =>
      exact ih (n + 1) (ids ++ [v n]) (idxs ++ [n]) (maps ++ [[n]]) hq2
        (cinv_step_new hI hfind)

theorem mkCache_spec (ps : List β) (d : β) :
    ∃ ids, CInv (fun i => ps.getD i d) ps.length ids
      (mkCache ps).idxs (mkCache ps).maps := by
  have hbase : CInv (fun i => ps.getD i d) 0 [] [] [] := by
    refine ⟨rfl, rfl, List.nodup_nil, ?_, ?_, ?_, ?_⟩ <;> intros <;> simp_all
  have hq : ∀ (k : Nat) (hk : k < ps.length), ps[k] = (fun i => ps.getD i d) (0 + k) := by
    intro k hk
    show ps[k] = ps.getD (0 + k) d
    rw [Nat.zero_add, List.getD_eq_getElem ps d hk]
  have h := buildLoop_inv (v := fun i => ps.getD i d) ps 0 [] [] [] hq hbase
  exact ⟨(buildLoop ps 0 [] [] []).1, by simpa [mkCache] using h⟩

theorem mkCache_nparams (ps : List β) : (mkCache ps).nparams = ps.length := rfl

theorem CInv.idx_mem {v : Nat → β} {n : Nat} {ids : List β} {idxs : List Nat}
    {maps : List (List Nat)} (hI : CInv v n ids idxs maps)
    {j : Nat} {jm : List Nat} (hjm : maps[j]? = some jm) :
    ∃ i0, idxs[j]? = some i0 ∧ i0 ∈ jm := by
  obtain ⟨hj, _⟩ := List.getElem?_eq_some.mp hjm
  have hj2 : j < idxs.length := hI.lenIdxs ▸ hj
  refine ⟨idxs.get ⟨j, hj2⟩, List.getElem?_eq_getElem hj2, ?_⟩
  have hh : jm.head? = some (idxs.get ⟨j, hj2⟩) := by
    rw [hI.headEq j jm hjm]
    exact List.getElem?_eq_getElem hj2
  exact List.mem_of_mem_head? (Option.mem_def.mpr hh)

theorem CInv.group_eq {v : Nat → β} {n : Nat} {ids : List β} {idxs : List Nat}
    {maps : List (List Nat)} (hI : CInv v n ids idxs maps)
    {j j' : Nat} {jm jm' : List Nat} {i i' : Nat}
    (hjm : maps[j]? = some jm) (hjm' : maps[j']? = some jm')
    (hi : i ∈ jm) (hi' : i' ∈ jm') (hv : v i = v i') : j = j' := by
  have h1 := hI.value j jm i hjm hi
  have h2 := hI.value j' jm' i' hjm' hi'
  rw [← hv] at h2
  obtain ⟨hja, hEq1⟩ := List.getElem?_eq_some.mp h1
  obtain ⟨hjb, hEq2⟩ := List.getElem?_eq_some.mp h2
  exact (hI.nodup.getElem_inj_iff).mp (hEq1.trans hEq2.symm)

theorem scatterGroup_spec {γ : Type} (jmap : List Nat) :
    ∀ (xs : List γ) (p : γ), (∀ i ∈ jmap, i < xs.length) →
    ∃ ys, scatterGroup xs jmap p = .ok ys ∧ ys.length = xs.length ∧
      (∀ i ∈ jmap, ys[i]? = some p) ∧ (∀ i : Nat, i ∉ jmap → ys[i]? = xs[i]?) := by
  induction jmap with
  | nil =>
    intro xs p _
    exact ⟨xs, rfl, rfl, by simp, fun _ _ => rfl⟩
  | cons i0 rest ih =>
    intro xs p hb
    have hi0 : i0 < xs.length := hb i0 (by simp)
    have hstep : pySetItem xs i0 p = .ok (xs.set i0 p) := by simp [pySetItem, hi0]
    have hb2 : ∀ i ∈ rest, i < (xs.set i0 p).length := by
      intro i hi
      simpa using hb i (by simp [hi])
    obtain ⟨ys, hys, hlen, hval, hout⟩ := ih (xs.set i0 p) p hb2
    refine ⟨ys, ?_, by simpa using hlen, ?_, ?_⟩
    · simp [scatterGroup, hstep, hys]
    · intro i hi
      rcases List.mem_cons.mp hi with rfl | hi
      · by_cases hmem : i ∈ rest
        · exact hval i hmem
        · rw [hout i hmem, List.getElem?_set_self hi0]
      · exact hval i hi
    · intro i hi
      have hne : i0 ≠ i := fun h => hi (h ▸ List.mem_cons_self i0 rest)
      have hnr : i ∉ rest := fun h => hi (List.mem_cons_of_mem _ h)
      rw [hout i hnr, List.getElem?_set_ne hne]

theorem scatterAll_spec {γ : Type} (ups : List γ) :
    ∀ (maps : List (List Nat)) (xs : List γ),
    ups.length ≤ maps.length →
    (∀ (g : Nat) (jm : List Nat), g < ups.length → maps[g]? = some jm →
      ∀ i ∈ jm, i < xs.length) →
    (∀ (g g' : Nat) (jm jm' : List Nat) (i : Nat), g < ups.length → g' < ups.length →
      maps[g]? = some jm → maps[g']? = some jm' → i ∈ jm → i ∈ jm' → g = g') →
    ∃ ys, scatterAll xs maps ups = .ok ys ∧ ys.length = xs.length ∧
      (∀ (g : Nat) (jm : List Nat) (p : γ), maps[g]? = some jm → ups[g]? = some p →
        ∀ i ∈ jm, ys[i]? = some p) ∧
      (∀ i : Nat, (∀ (g : Nat) (jm : List Nat), g < ups.length → maps[g]? = some jm →
        i ∉ jm) → ys[i]? = xs[i]?) := by
  induction ups with
  | nil =>
    intro maps xs _ _ _
    refine ⟨xs, rfl, rfl, ?_, fun _ _ => rfl⟩
    intro g jm p _ hup
    simp at hup
  | cons p ups' ih =>
    intro maps xs hlen hb hdisj
    cases maps with
    | nil => simp at hlen
    | cons jmap maps' =>
      have hjmap0 : (jmap :: maps')[0]? = some jmap := by simp
      have hb0 : ∀ i ∈ jmap, i < xs.length := hb 0 jmap (by simp) hjmap0
      obtain ⟨ys0, hys0, hlen0, hval0, hout0⟩ := scatterGroup_spec jmap xs p hb0
      have hlen2 : ups'.length ≤ maps'.length := by simpa using hlen
      have hb2 : ∀ (g : Nat) (jm : List Nat), g < ups'.length → maps'[g]? = some jm →
          ∀ i ∈ jm, i < ys0.length := by
        intro g jm hg hjm i hi
        rw [hlen0]
        exact hb (g + 1) jm (by simpa using Nat.succ_lt_succ hg) (by simpa using hjm) i hi
      have hdisj2 : ∀ (g g' : Nat) (jm jm' : List Nat) (i : Nat), g < ups'.length →
          g' < ups'.length → maps'[g]? = some jm → maps'[g']? = some jm' →
          i ∈ jm → i ∈ jm' → g = g' := by
        intro g g' jm jm' i hg hg' hjm hjm' hi hi'
        have := hdisj (g + 1) (g' + 1) jm jm' i (by simpa using Nat.succ_lt_succ hg)
          (by simpa using Nat.succ_lt_succ hg') (by simpa using hjm)
          (by simpa using hjm') hi hi'
        omega
      obtain ⟨ys, hys, hlny, hval, hout⟩ := ih maps' ys0 hlen2 hb2 hdisj2
      have hnotlater : ∀ i ∈ jmap, ∀ (g' : Nat) (jm' : List Nat), g' < ups'.length →
          maps'[g']? = some jm' → i ∉ jm' := by
        intro i hi g' jm' hg' hjm' hin
        have := hdisj 0 (g' + 1) jmap jm' i (by simp) (by simpa using Nat.succ_lt_succ hg')
          hjmap0 (by simpa using hjm') hi hin
        omega
      refine ⟨ys, ?_, by rw [hlny, hlen0], ?_, ?_⟩
      · simp [scatterAll, hys0, hys]
      · intro g jm q hjm hup i hi
        cases g with
        | zero =>
          simp at hjm hup
          subst hjm
          subst hup
          rw [hout i (hnotlater i hi)]
          exact hval0 i hi
        | succ g =>
          simp at hjm hup
          exact hval g jm q hjm hup i hi
      · intro i hnone
        have hnone2 : ∀ (g : Nat) (jm : List Nat), g < ups'.length → maps'[g]? = some jm →
            i ∉ jm :=
          fun g jm hg hjm => hnone (g + 1) jm (by simpa using Nat.succ_lt_succ hg)
            (by simpa using hjm)
        rw [hout i hnone2]
        exact hout0 i (hnone 0 jmap (by simp) hjmap0)

theorem pyGetItems_spec (idxs : List Nat) :
    ∀ xs : List β, (∀ (k i : Nat), idxs[k]? = some i → i < xs.length) →
    ∃ ys, pyGetItems xs idxs = .ok ys ∧ ys.length = idxs.length ∧
      ∀ (k i : Nat), idxs[k]? = some i → ys[k]? = xs[i]? := by
  induction idxs with
  | nil =>
    intro xs _
    refine ⟨[], rfl, rfl, ?_⟩
    intro k i h
    simp at h
  | cons i0 rest ih =>
    intro xs hb
    have hi0 : i0 < xs.length := hb 0 i0 (by simp)
    have hx : xs[i0]? = some (xs.get ⟨i0, hi0⟩) := List.getElem?_eq_getElem hi0
    obtain ⟨ys, hys, hlen, hval⟩ := ih xs (fun k i h => hb (k + 1) i (by simpa using h))
    refine ⟨xs.get ⟨i0, hi0⟩ :: ys, ?_, by simp [hlen], ?_⟩
    · simp [pyGetItems, hx, hys]
    · intro k i h
      cases k with
      | zero =>
        simp at h
        subst h
        simpa using hx.symm
      | succ k =>
        simp at h ⊢
        exact hval k i h

theorem mkCache_idxs_bound (ps : List β) (d : β) :
    ∀ (k i : Nat), (mkCache ps).idxs[k]? = some i → i < ps.length := by
  obtain ⟨ids, hI⟩ := mkCache_spec ps d
  intro k i h
  obtain ⟨hk, _⟩ := List.getElem?_eq_some.mp h
  have hk2 : k < (mkCache ps).maps.length := hI.lenIdxs ▸ hk
  have hjm : (mkCache ps).maps[k]? = some ((mkCache ps).maps.get ⟨k, hk2⟩) :=
    List.getElem?_eq_getElem hk2
  obtain ⟨i0, hi0, hmem⟩ := hI.idx_mem hjm
  rw [h] at hi0
  injection hi0 with heq
  subst heq
  exact hI.bound k _ i hjm hmem

theorem getuniqueparams_wf (s : ModState β) (d : β) (hwf : CacheWF s) :
    ∃ ups s1, getuniqueparams s = .ok (ups, s1) ∧
      s1.allparams = s.allparams ∧
      s1.cache = some (mkCache s.allparams) ∧
      ups.length = (mkCache s.allparams).idxs.length ∧
      (∀ (k i : Nat), (mkCache s.allparams).idxs[k]? = some i →
        ups[k]? = s.allparams[i]?) := by
  obtain ⟨ys, hys, hlen, hval⟩ := pyGetItems_spec (mkCache s.allparams).idxs s.allparams
    (mkCache_idxs_bound s.allparams d)
  rcases hwf with hc | hc
  · refine ⟨ys, { s with cache := some (mkCache s.allparams) }, ?_, rfl, rfl, hlen, hval⟩
    simp only [getuniqueparams, getparams, getUniqueParamsIdxs, hc]
    rw [hys]
  · refine ⟨ys, s, ?_, rfl, hc, hlen, hval⟩
    simp only [getuniqueparams, getparams, getUniqueParamsIdxs, hc]
    rw [hys]

theorem setuniqueparams_mk (ps0 : List β) (d : β) (s : ModState β)
    (hc : s.cache = some (mkCache ps0)) (ups : List β)
    (hlen : ups.length ≤ (mkCache ps0).maps.length) :
    ∃ ps n, setuniqueparams d s ups = .ok ({ s with allparams := ps }, n) ∧
      ps.length = ps0.length ∧
      (∀ (g : Nat) (jm : List Nat) (p : β), (mkCache ps0).maps[g]? = some jm →
        ups[g]? = some p → ∀ i ∈ jm, ps[i]? = some p) ∧
      (∀ i : Nat, (∀ (g : Nat) (jm : List Nat), g < ups.length →
        (mkCache ps0).maps[g]? = some jm → i ∉ jm) →
        ps[i]? = (List.replicate ps0.length d)[i]?) := by
  obtain ⟨ids, hI⟩ := mkCache_spec ps0 d
  have hb : ∀ (g : Nat) (jm : List Nat), g < ups.length →
      (mkCache ps0).maps[g]? = some jm →
      ∀ i ∈ jm, i < (List.replicate (mkCache ps0).nparams d).length := by
    intro g jm _ hjm i hi
    rw [List.length_replicate, mkCache_nparams]
    exact hI.bound g jm i hjm hi
  have hdisj : ∀ (g g' : Nat) (jm jm' : List Nat) (i : Nat), g < ups.length →
      g' < ups.length → (mkCache ps0).maps[g]? = some jm →
      (mkCache ps0).maps[g']? = some jm' → i ∈ jm → i ∈ jm' → g = g' := by
    intro g g' jm jm' i _ _ hjm hjm' hi hi'
    exact hI.group_eq hjm hjm' hi hi' rfl
  obtain ⟨ys, hys, hlny, hval, hout⟩ := scatterAll_spec ups (mkCache ps0).maps
    (List.replicate (mkCache ps0).nparams d) hlen hb hdisj
  refine ⟨ys, ys.length, ?_, ?_, hval, ?_⟩
  · simp only [setuniqueparams, hc]
    rw [hys]
    simp [setparams, hc]
  · rw [hlny, List.length_replicate, mkCache_nparams]
  · intro i hno
    rw [hout i hno]
    rfl

theorem getunique_readback (ps0 : List β) (d : β) (s2 : ModState β)
    (hc : s2.cache = some (mkCache ps0))
    (hlenp : s2.allparams.length = ps0.length)
    (ups : List β) (hlen : ups.length = (mkCache ps0).maps.length)
    (hval : ∀ (g : Nat) (jm : List Nat) (p : β), (mkCache ps0).maps[g]? = some jm →
      ups[g]? = some p → ∀ i ∈ jm, s2.allparams[i]? = some p) :
    getuniqueparams s2 = .ok (ups, s2) := by
  obtain ⟨ids, hI⟩ := mkCache_spec ps0 d
  have hbound : ∀ (k i : Nat), (mkCache ps0).idxs[k]? = some i →
      i < s2.allparams.length := by
    intro k i h
    rw [hlenp]
    exact mkCache_idxs_bound ps0 d k i h
  obtain ⟨ys, hys, hlny, hv⟩ := pyGetItems_spec (mkCache ps0).idxs s2.allparams hbound
  have hyseq : ys = ups := by
    apply List.ext_getElem?
    intro k
    by_cases hk : k < (mkCache ps0).idxs.length
    · have hk2 : k < (mkCache ps0).maps.length := hI.lenIdxs ▸ hk
      have hjm : (mkCache ps0).maps[k]? = some ((mkCache ps0).maps.get ⟨k, hk2⟩) :=
        List.getElem?_eq_getElem hk2
      obtain ⟨i0, hi0, hmem⟩ := hI.idx_mem hjm
      have hkup : k < ups.length := by
        rw [hlen]
        exact hk2
      have hup : ups[k]? = some (ups.get ⟨k, hkup⟩) := List.getElem?_eq_getElem hkup
      have h1 : s2.allparams[i0]? = some (ups.get ⟨k, hkup⟩) :=
        hval k _ _ hjm hup i0 hmem
      have h2 := hv k i0 hi0
      rw [h2, h1, hup]
    · rw [List.getElem?_eq_none, List.getElem?_eq_none]
      · rw [hlen, ← hI.lenIdxs]
        exact Nat.le_of_not_lt hk
      · rw [hlny]
        exact Nat.le_of_not_lt hk
  subst hyseq
  simp only [getuniqueparams, getparams, getUniqueParamsIdxs, hc]
  rw [hys]

theorem mkCache_len (ps : List β) (d : β) :
    (mkCache ps).idxs.length = (mkCache ps).maps.length := by
  obtain ⟨ids, hI⟩ := mkCache_spec ps d
  exact hI.lenIdxs

theorem mkCache_same_group_value (ps0 : List β) (d : β) {ids : List β}
    (hI : CInv (fun i => ps0.getD i d) ps0.length ids
      (mkCache ps0).idxs (mkCache ps0).maps)
    {g : Nat} {jm : List Nat} {i i' : Nat}
    (hjm : (mkCache ps0).maps[g]? = some jm) (hi : i ∈ jm) (hi' : i' ∈ jm) :
    ps0[i]? = ps0[i']? := by
  have h1 := hI.value g jm i hjm hi
  have h2 := hI.value g jm i' hjm hi'
  rw [h1] at h2
  injection h2 with hv
  have hb1 := hI.bound g jm i hjm hi
  have hb2 := hI.bound g jm i' hjm hi'
  simp only [List.getD_eq_getElem ps0 d hb1, List.getD_eq_getElem ps0 d hb2] at hv
  rw [List.getElem?_eq_getElem hb1, List.getElem?_eq_getElem hb2, hv]

theorem setuniqueparams_ok_cache {d : β} {s s2 : ModState β} {ups : List β} {n : Nat}
    (h : setuniqueparams d s ups = .ok (s2, n)) : s2.cache = s.cache := by
  cases hc : s.cache with
  | none => simp [setuniqueparams, hc] at h
  | some c =>
    simp only [setuniqueparams, hc] at h
    cases hsc : scatterAll (List.replicate c.nparams d) c.maps ups with
    | error e =>
      rw [hsc] at h
      cases h
    | ok ps =>
      rw [hsc] at h
      simp only [setparams, Except.ok.injEq, Prod.mk.injEq] at h
      rw [← h.1]
      exact hc

/-- Claim C6 (dedup/round-trip identity): for a module in a well-formed
state, calling `setuniqueparams(m, *getuniqueparams(m))` succeeds and leaves
the parameter state unchanged: `getparams` afterwards returns the identical
list of tensors. -/
theorem setuniqueparams_getuniqueparams_roundtrip (d : β) (s : ModState β)
    (hwf : CacheWF s) (ups : List β) (s1 : ModState β)
    (hget : getuniqueparams s = .ok (ups, s1)) :
    ∃ s2 n, setuniqueparams d s1 ups = .ok (s2, n) ∧ getparams s2 = getparams s := by
  obtain ⟨ups0, s1', hget', ha, hc, hlen, hval⟩ := getuniqueparams_wf s d hwf
  rw [hget] at hget'
  injection hget' with h
  injection h with h1 h2
  subst h1
  subst h2
  have hlen2 : ups.length = (mkCache s.allparams).maps.length := by
    rw [hlen]
    exact mkCache_len s.allparams d
  obtain ⟨ps, n, hok, hlenp, hv, hout⟩ :=
    setuniqueparams_mk s.allparams d s1 hc ups (le_of_eq hlen2)
  refine ⟨{ s1 with allparams := ps }, n, hok, ?_⟩
  show ps = s.allparams
  obtain ⟨ids, hI⟩ := mkCache_spec s.allparams d
  apply List.ext_getElem?
  intro k
  by_cases hk : k < s.allparams.length
  · obtain ⟨g, jm, hjm, hmem⟩ := hI.cover k hk
    obtain ⟨i0, hi0, hmem0⟩ := hI.idx_mem hjm
    have hups : ups[g]? = s.allparams[i0]? := hval g i0 hi0
    have hb0 : i0 < s.allparams.length := hI.bound g jm i0 hjm hmem0
    have hups2 : ups[g]? = some (s.allparams.get ⟨i0, hb0⟩) := by
      rw [hups]
      exact List.getElem?_eq_getElem hb0
    have hps : ps[k]? = some (s.allparams.get ⟨i0, hb0⟩) :=
      hv g jm (s.allparams.get ⟨i0, hb0⟩) hjm hups2 k hmem
    have hsame : s.allparams[k]? = s.allparams[i0]? :=
      mkCache_same_group_value s.allparams d hI hjm hmem hmem0
    rw [hps, hsame]
    exact (List.getElem?_eq_getElem hb0).symm
  · rw [List.getElem?_eq_none (Nat.le_of_not_lt hk),
      List.getElem?_eq_none (by rw [hlenp]; exact Nat.le_of_not_lt hk)]

/-- Claim C4 (scoped restore): for a module in a well-formed state and a
block that does not tamper with the private dedup caches, after `useparams`
exits - whether the block completed normally or raised - `getuniqueparams`
returns the same parameter list it returned immediately before the call. -/
theorem useparams_scoped_restore {ε : Type} (d : β) (s : ModState β) (newps : List β)
    (body : ModState β → ModState β × Option ε)
    (hwf : CacheWF s)
    (hbody : ∀ t, ((body t).1).cache = t.cache)
    (ups : List β) (s1 : ModState β)
    (hget : getuniqueparams s = .ok (ups, s1)) :
    ∃ s3, getuniqueparams (useparams d s newps body).1 = .ok (ups, s3) := by
  obtain ⟨ups0, s1', hget', ha, hc, hlen, hval⟩ := getuniqueparams_wf s d hwf
  rw [hget] at hget'
  injection hget' with h
  injection h with h1 h2
  subst h1
  subst h2
  have hlen2 : ups.length = (mkCache s.allparams).maps.length := by
    rw [hlen]
    exact mkCache_len s.allparams d
  have hrestore : ∀ t : ModState β, t.cache = some (mkCache s.allparams) →
      ∃ ps n, setuniqueparams d t ups = .ok ({ t with allparams := ps }, n) ∧
        getuniqueparams { t with allparams := ps } =
          .ok (ups, { t with allparams := ps }) := by
    intro t ht
    obtain ⟨ps, n, hok, hlenp, hv, hout⟩ :=
      setuniqueparams_mk s.allparams d t ht ups (le_of_eq hlen2)
    exact ⟨ps, n, hok,
      getunique_readback s.allparams d { t with allparams := ps } ht hlenp ups hlen2 hv⟩
  simp only [useparams, hget]
  cases hsub : setuniqueparams d s1 newps with
  | error e =>
    obtain ⟨ps, n, hok, hread⟩ := hrestore s1 hc
    simp only [hok]
    exact ⟨_, hread⟩
  | ok pr =>
    obtain ⟨s2, n2⟩ := pr
    have hc2 : s2.cache = s1.cache := setuniqueparams_ok_cache hsub
    have hc3 : ((body s2).1).cache = some (mkCache s.allparams) := by
      rw [hbody s2, hc2, hc]
    obtain ⟨ps, n, hok, hread⟩ := hrestore (body s2).1 hc3
    simp only [hok]
    exact ⟨_, hread⟩

/-- Claim C5 (exception suppression): for a module in a well-formed state,
with a substitution that fits the alias groups and a block that does not
tamper with the dedup caches, `useparams` reports normal completion to its
caller no matter what the block does: in particular an exception raised by
the block (`body` returning `some e`) is traced and swallowed, never
re-raised. -/
theorem useparams_suppresses_block_exception {ε : Type} (d : β) (s : ModState β)
    (newps : List β) (body : ModState β → ModState β × Option ε)
    (hwf : CacheWF s)
    (hbody : ∀ t, ((body t).1).cache = t.cache)
    (hnew : newps.length ≤ (mkCache s.allparams).maps.length) :
    (useparams d s newps body).2 = none := by
  obtain ⟨ups0, s1, hget, ha, hc, hlen, hval⟩ := getuniqueparams_wf s d hwf
  have hlen2 : ups0.length = (mkCache s.allparams).maps.length := by
    rw [hlen]
    exact mkCache_len s.allparams d
  obtain ⟨ps, n, hok, hlenp, hv, hout⟩ := setuniqueparams_mk s.allparams d s1 hc newps hnew
  have hc3 : ((body { s1 with allparams := ps }).1).cache = some (mkCache s.allparams) := by
    rw [hbody _]
    exact hc
  obtain ⟨ps2, n2, hok2, hlenp2, hv2, hout2⟩ :=
    setuniqueparams_mk s.allparams d (body { s1 with allparams := ps }).1 hc3 ups0
      (le_of_eq hlen2)
  simp only [useparams, hget, hok, hok2]

/-- Claim C7 (alias propagation): if `getparams` holds the identical tensor
at positions `i` and `j`, then `setuniqueparams` with fresh unique
parameters writes the same supplied tensor (the one for the shared alias
group) into both positions of the list it hands to `setparams`. -/
theorem setuniqueparams_alias_propagation (d : β) (s : ModState β) (hwf : CacheWF s)
    (ups0 : List β) (s1 : ModState β)
    (hget : getuniqueparams s = .ok (ups0, s1))
    (i j : Nat) (hi : i < (getparams s).length) (hj : j < (getparams s).length)
    (hij : (getparams s).get ⟨i, hi⟩ = (getparams s).get ⟨j, hj⟩)
    (newps : List β) (hlen : newps.length = ups0.length) :
    ∃ (s2 : ModState β) (n g : Nat) (p : β), setuniqueparams d s1 newps = .ok (s2, n) ∧
      newps[g]? = some p ∧
      (getparams s2)[i]? = some p ∧ (getparams s2)[j]? = some p := by
  obtain ⟨ups0', s1', hget', ha, hc, hlen', hval⟩ := getuniqueparams_wf s d hwf
  rw [hget] at hget'
  injection hget' with h
  injection h with h1 h2
  subst h1
  subst h2
  have hlen2 : newps.length = (mkCache s.allparams).maps.length := by
    rw [hlen, hlen']
    exact mkCache_len s.allparams d
  obtain ⟨ids, hI⟩ := mkCache_spec s.allparams d
  obtain ⟨g, jm, hjm, hmemi⟩ := hI.cover i hi
  obtain ⟨g', jm', hjm', hmemj⟩ := hI.cover j hj
  have hvij : s.allparams.getD i d = s.allparams.getD j d := by
    rw [List.getD_eq_getElem s.allparams d (hi : i < s.allparams.length),
      List.getD_eq_getElem s.allparams d (hj : j < s.allparams.length)]
    exact hij
  have hgg : g = g' := hI.group_eq hjm hjm' hmemi hmemj hvij
  subst hgg
  have hjmeq : jm = jm' := by
    rw [hjm] at hjm'
    exact Option.some.inj hjm'
  subst hjmeq
  have hg : g < newps.length := by
    rw [hlen2]
    exact (List.getElem?_eq_some.mp hjm).1
  have hup : newps[g]? = some (newps.get ⟨g, hg⟩) := List.getElem?_eq_getElem hg
  obtain ⟨ps, n, hok, hlenp, hv, hout⟩ :=
    setuniqueparams_mk s.allparams d s1 hc newps (le_of_eq hlen2)
  refine ⟨{ s1 with allparams := ps }, n, g, newps.get ⟨g, hg⟩, hok, hup, ?_, ?_⟩
  · exact hv g jm _ hjm hup i hmemi
  · exact hv g jm _ hjm hup j hmemj

end EditableModule

/-- Witness for C4 at a concrete module: parameters `[0, 0, 1]` (positions 0
and 1 alias), substitution `[5, 6]`, and a block that raises: afterwards
`getuniqueparams` again returns `[0, 1]`. -/
theorem useparams_scoped_restore_witness :
    EditableModule.CacheWF (⟨[0, 0, 1], none⟩ : EditableModule.ModState Nat) ∧
    ∃ s3, EditableModule.getuniqueparams
        ((EditableModule.useparams (ε := Unit) 7 ⟨[0, 0, 1], none⟩ [5, 6]
          (fun t => (t, some ()))).1) = .ok ([0, 1], s3) :=
  ⟨by decide,
    EditableModule.useparams_scoped_restore 7 ⟨[0, 0, 1], none⟩ [5, 6]
      (fun t => (t, some ())) (by decide) (fun _ => rfl) [0, 1]
      ⟨[0, 0, 1], some (EditableModule.mkCache [0, 0, 1])⟩ (by rfl)⟩

/-- Witness for C5 at a concrete module with a raising block: the caller
observes normal completion. -/
theorem useparams_suppresses_block_exception_witness :
    EditableModule.CacheWF (⟨[0, 0, 1], none⟩ : EditableModule.ModState Nat) ∧
    (EditableModule.useparams (ε := Unit) 7 ⟨[0, 0, 1], none⟩ [5, 6]
      (fun t => (t, some ()))).2 = none :=
  ⟨by decide,
    EditableModule.useparams_suppresses_block_exception 7 ⟨[0, 0, 1], none⟩ [5, 6]
      (fun t => (t, some ())) (by decide) (fun _ => rfl) (by decide)⟩

/-- Witness for C6 at a concrete module: writing back the unique parameters
read from `[0, 0, 1]` leaves the parameter list unchanged. -/
theorem setuniqueparams_getuniqueparams_roundtrip_witness :
    EditableModule.CacheWF (⟨[0, 0, 1], none⟩ : EditableModule.ModState Nat) ∧
    ∃ s2 n, EditableModule.setuniqueparams 7
        (⟨[0, 0, 1], some (EditableModule.mkCache [0, 0, 1])⟩ :
          EditableModule.ModState Nat) [0, 1] = .ok (s2, n) ∧
      EditableModule.getparams s2 =
        EditableModule.getparams (⟨[0, 0, 1], none⟩ : EditableModule.ModState Nat) :=
  ⟨by decide,
    EditableModule.setuniqueparams_getuniqueparams_roundtrip 7 ⟨[0, 0, 1], none⟩
      (by decide) [0, 1] ⟨[0, 0, 1], some (EditableModule.mkCache [0, 0, 1])⟩ (by rfl)⟩

/-- Witness for C7 at a concrete module: positions 0 and 1 hold the
identical tensor, so the supplied replacement lands in both. -/
theorem setuniqueparams_alias_propagation_witness :
    EditableModule.CacheWF (⟨[0, 0, 1], none⟩ : EditableModule.ModState Nat) ∧
    ∃ (s2 : EditableModule.ModState Nat) (n g : Nat) (p : Nat),
      EditableModule.setuniqueparams 7
        (⟨[0, 0, 1], some (EditableModule.mkCache [0, 0, 1])⟩ :
          EditableModule.ModState Nat) [5, 6] = .ok (s2, n) ∧
      ([5, 6] : List Nat)[g]? = some p ∧
      (EditableModule.getparams s2)[0]? = some p ∧
      (EditableModule.getparams s2)[1]? = some p :=
  ⟨by decide,
    EditableModule.setuniqueparams_alias_propagation 7 ⟨[0, 0, 1], none⟩ (by decide)
      [0, 1] ⟨[0, 0, 1], some (EditableModule.mkCache [0, 0, 1])⟩ (by rfl)
      0 1 (by decide) (by decide) rfl [5, 6] rfl⟩

namespace SolveIVP

/-- A value that is either a single tensor or a Python list/tuple of
tensors; mirrors the tuple-ness distinction made by `solve_ivp`. -/
inductive PyVal (T : Type) where
  | single (t : T)
  | list (ts : List T)
deriving Repr, DecidableEq

def PyVal.isList {T : Type} : PyVal T → Bool
  | .single _ => false
  | .list _ => true

/-- A tensor as far as the `solve_ivp` entry validation is concerned: its
shape, and its entries when it is a 1-D time grid. -/
structure Tsr (T : Type) where
  shape : List Nat
  data : List T
deriving Repr, DecidableEq

/-- The four stepping strategies of the solver registry of
`_SolveIVP.forward`. -/
inductive StepMethod where
  | rk4
  | rk38
  | rk23
  | rk45
deriving Repr, DecidableEq

/-- The solver dict lookup of `_SolveIVP.forward` (solve_ivp.py lines
90-95): keys are the four lower-case method names; a missing key raises
KeyError (modelled as `none`). -/
def methodLookup (m : String) : Option StepMethod :=
  if m = "rk4" then some .rk4
  else if m = "rk38" then some .rk38
  else if m = "rk23" then some .rk23
  else if m = "rk45" then some .rk45
  else none

/-- A configuration dictionary: an ordered association list without
duplicate keys. -/
abbrev Config := List (String × String)

/-- Python `str.lower()` restricted to its effect on ASCII names: lower-case
every character.  (`String.toLower` itself is defined by well-founded
recursion and does not reduce definitionally, so the model maps over the
character list directly.) -/
def pyLower (s : String) : String := ⟨s.data.map Char.toLower⟩

/-- Python `dict[key] = value`: replace in place or append. -/
def cfgSet (c : Config) (k v : String) : Config :=
  match c with
  | [] => [(k, v)]
  | (k2, v2) :: rest => if k2 = k then (k2, v) :: rest else (k2, v2) :: cfgSet rest k v

/-- Python `dict[key]` read: KeyError when absent. -/
def cfgGet (c : Config) (k : String) : Except PyErr String :=
  match c with
  | [] => .error (.keyError k)
  | (k2, v) :: rest => if k2 = k then .ok v else cfgGet rest k

/-- Python `dict.pop(key)` without a default: return the value and the
dictionary without that key; KeyError when absent. -/
def cfgPop (c : Config) (k : String) : Except PyErr (String × Config) :=
  match c with
  | [] => .error (.keyError k)
  | (k2, v) :: rest =>
    if k2 = k then .ok (v, rest)
    else
      match cfgPop rest k with
      | .error e => .error e
      | .ok (v2, rest2) => .ok (v2, (k2, v) :: rest2)

/-- Modelled from the spec: `set_default_option` (from
`xitorch._utils.misc`, whose source is not under src/) merges the
caller-supplied options over the defaults - the spec says the forward
configuration is "merged over defaults {method: rk45}". -/
def setDefaultOption (dflt opts : Config) : Config :=
  match opts with
  | [] => dflt
  | (k, v) :: rest => setDefaultOption (cfgSet dflt k v) rest

/-- Method selection of `_SolveIVP.forward` (solve_ivp.py lines 87-97):
`orig_method = config.pop("method")`, lower-case it, index the solver dict.
On an unknown name the except-handler formats its message from
`config["method"]` - but "method" was just popped from `config`, so that
lookup raises `KeyError("method")` before the RuntimeError is built. -/
def selectSolver (config : Config) : Except PyErr (StepMethod × Config) :=
  match cfgPop config "method" with
  | .error e => .error e
  | .ok (origMethod, config2) =>
    match methodLookup (pyLower origMethod) with
    | some sm => .ok (sm, config2)
    | none =>
      match cfgGet config2 "method" with
      | .error e => .error e
      | .ok mval => .error (.runtimeError ("Unknown solve_ivp method: " ++ mval))

/-- Observable events of one `solve_ivp` call, in order: evaluations of the
user right-hand-side function performed by the entry code, stepping-method
selection, and the hand-off to the selected stepping strategy (the
integration itself lives in stepper code outside src/). -/
inductive Ev (T P : Type) where
  | fcnEval (t : T) (y : PyVal T) (ps : List P)
  | methodSelect (m : StepMethod)
  | solverRun (m : StepMethod)
deriving Repr, DecidableEq

def Ev.isFcnEval {T P : Type} : Ev T P → Bool
  | .fcnEval _ _ _ => true
  | _ => false

/-- The entry pipeline of `solve_ivp` (solve_ivp.py lines 47-74) composed
with the configuration handling and method selection of `_SolveIVP.forward`
(lines 78-98), instrumented with an event trace:
1. `assert_runtime(len(ts.shape) == 1, "Argument ts must be a 1D tensor")`
   (modelled from the spec: `assert_runtime`, from `xitorch._utils.assertfuncs`
   outside src/, raises a RuntimeError with the given message when the
   condition is false);
2. evaluate `fcn` once at `(ts[0], y0, *params)` - recorded as a `fcnEval`
   event - solely to learn the tuple-ness of its output;
3. reject a tuple-ness mismatch between `y0` and that output;
4. merge the forward options over `{method: rk45}`, select the stepping
   strategy, and hand off to it (`methodSelect` then `solverRun` events).
The trajectory itself is produced by the stepping strategies, whose code is
outside src/; the hand-off event marks where integration begins. -/
def solveIVPTrace {T P : Type} (fcn : T → PyVal T → List P → PyVal T)
    (ts : Tsr T) (y0 : PyVal T) (params : List P) (fwdOptions : Config) :
    Except PyErr StepMethod × List (Ev T P) :=
  if ts.shape.length ≠ 1 then
    (.error (.runtimeError "Argument ts must be a 1D tensor"), [])
  else
    match ts.data[0]? with
    | none => (.error .indexError, [])
    | some t0 =>
      let dydt := fcn t0 y0 params
      let ev0 : List (Ev T P) := [.fcnEval t0 y0 params]
      if y0.isList ≠ dydt.isList then
        (.error (.runtimeError "The y0 and output of fcn must both be tuple or a tensor"),
          ev0)
      else
        match selectSolver (setDefaultOption [("method", "rk45")] fwdOptions) with
        | .error e => (.error e, ev0)
        | .ok (sm, _) => (.ok sm, ev0 ++ [.methodSelect sm, .solverRun sm])

/-- Claim C3: requesting the unknown stepping strategy "rk99" does not
produce an error naming "rk99".  `forward` pops "method" from the config,
and the KeyError handler then evaluates `config["method"]` to format its
message - but the key is gone, so the call raises `KeyError("method")`
instead of the intended `RuntimeError("Unknown solve_ivp method: rk99")`. -/
theorem unknown_method_raises_bare_keyerror :
    (solveIVPTrace (fun t _ _ => PyVal.single t) ⟨[2], [(0 : Int), 1]⟩
      (PyVal.single 0) ([] : List Int) [("method", "rk99")]).1
      = .error (.keyError "method") := by rfl

/-- Claim C9, counterexample part: the 1-D but non-monotonic time grid
[0, 1, 0] is not rejected - the call evaluates the right-hand side, selects
rk45 and hands off to the stepping strategy without any error. -/
theorem nonmonotonic_grid_not_rejected :
    solveIVPTrace (fun t _ _ => PyVal.single t) ⟨[3], [(0 : Int), 1, 0]⟩
      (PyVal.single 0) ([] : List Int) [] =
    (.ok .rk45,
      [.fcnEval 0 (PyVal.single 0) [], .methodSelect .rk45, .solverRun .rk45]) := by rfl

/-- Claim C9, amended: a time grid that is not 1-dimensional is rejected
with the `assert_runtime` RuntimeError before the right-hand side is ever
evaluated and before any method selection or integration (the event trace
is empty); strict monotonicity, by contrast, is not validated at all (see
the counterexample above). -/
theorem non1d_grid_rejected {T P : Type} (fcn : T → PyVal T → List P → PyVal T)
    (ts : Tsr T) (y0 : PyVal T) (params : List P) (opts : Config)
    (h : ts.shape.length ≠ 1) :
    solveIVPTrace fcn ts y0 params opts =
      (.error (.runtimeError "Argument ts must be a 1D tensor"), []) := by
  simp [solveIVPTrace, h]

/-- Claim C10: on every call whose grid passes the 1-D assertion and is
nonempty, `fcn` is evaluated exactly once, at `(ts[0], y0, *params)`,
before any stepping strategy is selected and before integration begins:
the event trace starts with that single `fcnEval` and contains no other
one.  Moreover the probe result is used solely for its tuple-ness: two
right-hand sides whose probe outputs agree on `isList` yield identical
outcomes and traces. -/
theorem fcn_probed_once_before_dispatch {T P : Type}
    (fcn : T → PyVal T → List P → PyVal T)
    (ts : Tsr T) (y0 : PyVal T) (params : List P) (opts : Config) (t0 : T)
    (h1 : ts.shape.length = 1) (h0 : ts.data[0]? = some t0) :
    (∃ rest, (solveIVPTrace fcn ts y0 params opts).2 =
        Ev.fcnEval t0 y0 params :: rest ∧
      ∀ e ∈ rest, e.isFcnEval = false) ∧
    (∀ gcn : T → PyVal T → List P → PyVal T,
      (gcn t0 y0 params).isList = (fcn t0 y0 params).isList →
      solveIVPTrace gcn ts y0 params opts = solveIVPTrace fcn ts y0 params opts) := by
  constructor
  · simp only [solveIVPTrace, h1, h0]
    by_cases hm : y0.isList ≠ (fcn t0 y0 params).isList
    · refine ⟨[], ?_, by simp⟩
      simp [hm]
    · cases hsel : selectSolver (setDefaultOption [("method", "rk45")] opts) with
      | error e =>
        refine ⟨[], ?_, by simp⟩
        simp [hm, hsel]
      | ok pr =>
        refine ⟨[.methodSelect pr.1, .solverRun pr.1], ?_, ?_⟩
        · simp [hm, hsel]
        · intro e he
          rcases List.mem_cons.mp he with rfl | he
          · rfl
          · rcases List.mem_singleton.mp he with rfl
            rfl
  · intro gcn hg
    simp only [solveIVPTrace, h1, h0, hg]

end SolveIVP

/-- Witness for C9 amended at a concrete non-1-D grid. -/
theorem non1d_grid_rejected_witness :
    ((⟨[2, 2], [0, 1, 2, 3]⟩ : SolveIVP.Tsr Int).shape.length ≠ 1) ∧
    SolveIVP.solveIVPTrace (fun t _ _ => SolveIVP.PyVal.single t)
      (⟨[2, 2], [0, 1, 2, 3]⟩ : SolveIVP.Tsr Int)
      (SolveIVP.PyVal.single 0) ([] : List Int) [] =
      (.error (.runtimeError "Argument ts must be a 1D tensor"), []) :=
  ⟨by decide,
    SolveIVP.non1d_grid_rejected (fun t _ _ => SolveIVP.PyVal.single t)
      ⟨[2, 2], [0, 1, 2, 3]⟩ (SolveIVP.PyVal.single 0) [] [] (by decide)⟩

/-- Witness for C10 at a concrete call. -/
theorem fcn_probed_once_before_dispatch_witness :
    (∃ rest, (SolveIVP.solveIVPTrace
        (fun (_ : Int) (y : SolveIVP.PyVal Int) (_ : List Int) => y)
        ⟨[2], [0, 1]⟩ (SolveIVP.PyVal.single 5) [] []).2 =
        SolveIVP.Ev.fcnEval 0 (SolveIVP.PyVal.single 5) [] :: rest ∧
      ∀ e ∈ rest, e.isFcnEval = false) ∧
    (∀ gcn : Int → SolveIVP.PyVal Int → List Int → SolveIVP.PyVal Int,
      (gcn 0 (SolveIVP.PyVal.single 5) []).isList =
        ((fun (_ : Int) (y : SolveIVP.PyVal Int) (_ : List Int) => y)
          0 (SolveIVP.PyVal.single 5) []).isList →
      SolveIVP.solveIVPTrace gcn ⟨[2], [0, 1]⟩ (SolveIVP.PyVal.single 5) [] [] =
        SolveIVP.solveIVPTrace
          (fun (_ : Int) (y : SolveIVP.PyVal Int) (_ : List Int) => y)
          ⟨[2], [0, 1]⟩ (SolveIVP.PyVal.single 5) [] []) :=
  SolveIVP.fcn_probed_once_before_dispatch
    (fun (_ : Int) (y : SolveIVP.PyVal Int) (_ : List Int) => y)
    ⟨[2], [0, 1]⟩ (SolveIVP.PyVal.single 5) [] [] 0 (by decide) (by rfl)

namespace IVPBackward

/-- Index of the state slot in the augmented state (solve_ivp.py line 154). -/
def yIndex : Nat := 0

/-- Index of the state-adjoint slot (line 155). -/
def dLdyIndex : Nat := 1

/-- Index of the time-adjoint slot (line 156). -/
def dLdtIndex : Nat := 2

/-- Python list indexing with a possibly negative index (IndexError is
`none`). -/
def pyIdx {γ : Type} (xs : List γ) (k : Int) : Option γ :=
  let j : Int := if k < 0 then (xs.length : Int) + k else k
  if j < 0 then none else xs[j.toNat]?

/-- Python list item assignment with a possibly negative index. -/
def pySetIdx {γ : Type} (xs : List γ) (k : Int) (a : γ) : Option (List γ) :=
  let j : Int := if k < 0 then (xs.length : Int) + k else k
  if j < 0 then none
  else if j.toNat < xs.length then some (xs.set j.toNat a) else none

/-- Python list item assignment with a Nat index. -/
def pySetNat {γ : Type} (xs : List γ) (i : Nat) (a : γ) : Option (List γ) :=
  if i < xs.length then some (xs.set i a) else none

/-- The loop state of `_SolveIVP.backward` (solve_ivp.py lines 182-205):
the augmented `states` list, the running (negative) Python index
`t_flip_idx` into `yt` and `grad_yt`, and `grad_ts` (a list of per-sample
gradient slots when the grid needs gradients, else Python None). -/
structure BwdState (T : Type) where
  states : List T
  tFlipIdx : Int
  gradTs : Option (List (Option T))
deriving Repr, DecidableEq

variable {T : Type} [Add T] [Sub T]

/-- Lines 191-195 of the reverse walk: when the time grid requires a
gradient, evaluate the right-hand side at the current time and state
(`feval i y` models `pfunc2(ts_flip[i], states[y_index], tensor_params)[0]`),
dot it with the upstream gradient at the current index (`dotR` models
`torch.dot` composed with the reshapes), subtract the result from the
`dLdt` slot, and record it in `grad_ts`.  `none` models the Python
exception raised when an index is out of range or `grad_ts` is None. -/
def tsGradPhase (gradYt : List T) (feval : Nat → T → T) (dotR : T → T → T)
    (tsReqGrad : Bool) (i : Nat) (st : BwdState T) : Option (BwdState T) :=
  if tsReqGrad then
    match st.states[yIndex]? with
    | none => none
    | some ycur =>
      match pyIdx gradYt st.tFlipIdx with
      | none => none
      | some g =>
        match st.states[dLdtIndex]? with
        | none => none
        | some cur =>
          match st.gradTs with
          | none => none
          | some gl =>
            match pySetIdx gl st.tFlipIdx (some (dotR (feval i ycur) g)) with
            | none => none
            | some gl2 =>
              some { st with
                states := st.states.set dLdtIndex (cur - dotR (feval i ycur) g),
                gradTs := some gl2 }
  else some st

/-- One iteration of the reverse walk of `_SolveIVP.backward` (solve_ivp.py
lines 190-205).  `substep` abstracts the recursive `solve_ivp` call on the
two-point grid `ts_flip[i:i+2]` together with taking the sample at the
earlier time (`states = [out[-1] for out in outs]`, line 201): given the
iteration number and the augmented states at the later time it returns the
integrated augmented states at the earlier time.  After the sub-step the
`y` slot is overwritten with the stored forward-trajectory sample at the
new, earlier index (line 202), and the upstream gradient at that index is
added into the `adjointY` slot (line 205). -/
def backwardStep (yt gradYt : List T) (feval : Nat → T → T) (dotR : T → T → T)
    (substep : Nat → List T → List T) (tsReqGrad : Bool) (i : Nat)
    (st : BwdState T) : Option (BwdState T) :=
  match tsGradPhase gradYt feval dotR tsReqGrad i st with
  | none => none
  | some st1 =>
    match pyIdx yt (st1.tFlipIdx - 1) with
    | none => none
    | some ynew =>
      match pySetNat (substep i st1.states) yIndex ynew with
      | none => none
      | some sts3 =>
        match pyIdx gradYt (st1.tFlipIdx - 1) with
        | none => none
        | some gnew =>
          match sts3[dLdyIndex]? with
          | none => none
          | some prev =>
            match pySetNat sts3 dLdyIndex (gnew + prev) with
            | none => none
            | some sts4 =>
              some { states := sts4, tFlipIdx := st1.tFlipIdx - 1,
                     gradTs := st1.gradTs }

/-- Initialisation of the reverse walk (lines 182-188): the augmented state
starts from the last trajectory sample, the upstream gradient at the last
index, a zero time-adjoint and one zero slot per tensor parameter; the
running index starts at the Python index -1. -/
def backwardInit (yt gradYt : List T) (zeroT : T) (zeroParams : List T)
    (tsReqGrad : Bool) (nt : Nat) : Option (BwdState T) :=
  match pyIdx yt (-1), pyIdx gradYt (-1) with
  | some ylast, some glast =>
    some { states := [ylast, glast, zeroT] ++ zeroParams,
           tFlipIdx := -1,
           gradTs := if tsReqGrad then some (List.replicate nt none) else none }
  | _, _ => none

/-- The reverse walk itself (`for i in range(len(ts_flip)-1)`, line 190):
`k` iterations remain, starting at iteration `i`. -/
def backwardLoop (yt gradYt : List T) (feval : Nat → T → T) (dotR : T → T → T)
    (substep : Nat → List T → List T) (tsReqGrad : Bool) :
    Nat → Nat → BwdState T → Option (BwdState T)
  | _, 0, st => some st
  | i, k + 1, st =>
    match backwardStep yt gradYt feval dotR substep tsReqGrad i st with
    | none => none
    | some st2 => backwardLoop yt gradYt feval dotR substep tsReqGrad (i + 1) k st2

theorem tsGradPhase_tFlipIdx {gradYt : List T} {feval : Nat → T → T}
    {dotR : T → T → T} {b : Bool} {i : Nat} {st st1 : BwdState T}
    (h : tsGradPhase gradYt feval dotR b i st = some st1) :
    st1.tFlipIdx = st.tFlipIdx := by
  unfold tsGradPhase at h
  cases b with
  | false =>
    simp at h
    rw [← h]
  | true =>
    simp only [if_pos] at h
    repeat' split at h
    all_goals cases h
    all_goals rfl

/-- Claim C8: in every backward pass and at every reverse sub-step, after
the recursive sub-solve over `(t[i+1], t[i])` completes, the `y` slot of
the augmented state is overwritten with the forward trajectory sample
stored at the new (earlier) time index - discarding the back-integrated
`y` - and the upstream gradient sample at that index is added into the
`adjointY` slot.  `st1` is the state after the optional time-gradient
phase, `sts2` the augmented states the sub-solve returned. -/
theorem backward_substep_writeback (yt gradYt : List T)
    (feval : Nat → T → T) (dotR : T → T → T)
    (substep : Nat → List T → List T) (tsReqGrad : Bool) (i : Nat)
    (st st1 : BwdState T)
    (h1 : tsGradPhase gradYt feval dotR tsReqGrad i st = some st1)
    (sts2 : List T) (hsub : substep i st1.states = sts2)
    (ynew gnew prev : T)
    (hy : pyIdx yt (st1.tFlipIdx - 1) = some ynew)
    (hg : pyIdx gradYt (st1.tFlipIdx - 1) = some gnew)
    (hprev : sts2[dLdyIndex]? = some prev) :
    backwardStep yt gradYt feval dotR substep tsReqGrad i st =
      some { states := (sts2.set yIndex ynew).set dLdyIndex (gnew + prev),
             tFlipIdx := st.tFlipIdx - 1,
             gradTs := st1.gradTs } ∧
    ((sts2.set yIndex ynew).set dLdyIndex (gnew + prev))[yIndex]? = some ynew ∧
    ((sts2.set yIndex ynew).set dLdyIndex (gnew + prev))[dLdyIndex]? =
      some (gnew + prev) := by
  have hidx := tsGradPhase_tFlipIdx h1
  have hl1 : dLdyIndex < sts2.length := (List.getElem?_eq_some.mp hprev).1
  have hl0 : yIndex < sts2.length := by
    simp only [yIndex]
    simp only [dLdyIndex] at hl1
    omega
  have hset0 : pySetNat sts2 yIndex ynew = some (sts2.set yIndex ynew) := by
    simp [pySetNat, hl0]
  have hprev3 : (sts2.set yIndex ynew)[dLdyIndex]? = some prev := by
    rw [List.getElem?_set_ne (by simp [yIndex, dLdyIndex])]
    exact hprev
  have hl1b : dLdyIndex < (sts2.set yIndex ynew).length := by
    rw [List.length_set]
    exact hl1
  have hset1 : pySetNat (sts2.set yIndex ynew) dLdyIndex (gnew + prev) =
      some ((sts2.set yIndex ynew).set dLdyIndex (gnew + prev)) := by
    simp [pySetNat, hl1]
  refine ⟨?_, ?_, ?_⟩
  · simp only [backwardStep, h1, hsub, hy, hset0, hg, hprev3, hset1]
    rw [hidx]
  · rw [List.getElem?_set_ne (by simp [yIndex, dLdyIndex]),
      List.getElem?_set_self hl0]
  · rw [List.getElem?_set_self hl1b]

end IVPBackward

/-- Witness for C8 at a concrete sub-step with the time grid requiring
gradients: the y slot is overwritten with the stored sample 10 at the
earlier index and the upstream gradient 100 is added onto the propagated
adjoint 200. -/
theorem backward_substep_writeback_witness :
    IVPBackward.backwardStep [(10 : Int), 20] [100, 200] (fun _ y => y)
      (fun a b => a + b) (fun _ sts => sts) true 0
      ⟨[(20 : Int), 200, 0], -1, some [none, none]⟩ =
      some ⟨[10, 300, -220], -2, some [none, some 220]⟩ := by
  have h := IVPBackward.backward_substep_writeback [(10 : Int), 20] [100, 200]
    (fun _ y => y) (fun a b => a + b) (fun _ sts => sts) true 0
    ⟨[(20 : Int), 200, 0], -1, some [none, none]⟩
    ⟨[(20 : Int), 200, -220], -1, some [none, some 220]⟩
    (by decide) [20, 200, -220] rfl 10 100 200 (by decide) (by decide) (by decide)
  rw [h.1]
  decide

namespace GradAssembly

/-- Modelled from the spec: the partition performed by
`TensorNonTensorSeparator` (from `xitorch._utils.misc`, whose source is not
under src/): a parameter position either holds a differentiable tensor
(`tens`) or a value the differentiation boundary ignores (`nont`).  The
spec: the separator "partitions an ordered parameter list into tensor and
non-tensor subsets" and "reconstructs the original interleaved order given
just the tensor subset plus knowledge of which original positions were
non-tensor". -/
inductive SepParam (T NT : Type) where
  | tens (t : T)
  | nont (x : NT)
deriving Repr, DecidableEq

def SepParam.isTens {T NT : Type} : SepParam T NT → Bool
  | .tens _ => true
  | .nont _ => false

/-- `get_tensor_params()`: the tensor subset, in order. -/
def getTensorParams {T NT : Type} (ps : List (SepParam T NT)) : List T :=
  match ps with
  | [] => []
  | .tens t :: rest => t :: getTensorParams rest
  | .nont _ :: rest => getTensorParams rest

/-- Modelled from the spec: `reconstruct_params(tensor_vals, nontensor_vals)`
re-interleaves the two value lists into the original parameter order;
a length mismatch is an error (`none`). -/
def reconstructParams {T NT G : Type} (orig : List (SepParam T NT))
    (tens : List G) (non : List G) : Option (List G) :=
  match orig with
  | [] =>
    match tens, non with
    | [], [] => some []
    | _, _ => none
  | .tens _ :: rest =>
    match tens with
    | [] => none
    | g :: tens2 => (reconstructParams rest tens2 non).map (g :: ·)
  | .nont _ :: rest =>
    match non with
    | [] => none
    | g :: non2 => (reconstructParams rest tens non2).map (g :: ·)

/-- The gradient assembly at the end of `_SolveIVP.backward` (solve_ivp.py
lines 213-215): the tensor-parameter adjoints come out of the augmented
state (`grad_tensor_params = states[dLdp_slice]`); every remaining
parameter position receives Python `None` via
`grad_ntensor_params = [None for _ in range(len(allparams)-ntensor_params)]`;
`reconstruct_params` then re-interleaves them.  A gradient value is
`Option T`: `some g` is a tensor gradient, `none` is Python None - an
absent gradient, not a zero tensor. -/
def assembleGradParams {T NT : Type} (allparams : List (SepParam T NT))
    (gradTensor : List (Option T)) : Option (List (Option T)) :=
  reconstructParams allparams gradTensor
    (List.replicate (allparams.length - (getTensorParams allparams).length) none)

theorem getTensorParams_len_le {T NT : Type} (ps : List (SepParam T NT)) :
    (getTensorParams ps).length ≤ ps.length := by
  induction ps with
  | nil => simp [getTensorParams]
  | cons p rest ih =>
    cases p <;> simp [getTensorParams] <;> omega

theorem reconstructParams_spec {T NT G : Type} (orig : List (SepParam T NT)) :
    ∀ (tens non : List G),
    tens.length = (getTensorParams orig).length →
    non.length = orig.length - (getTensorParams orig).length →
    ∃ res, reconstructParams orig tens non = some res ∧
      res.length = orig.length ∧
      (∀ (i : Nat) (hi : i < orig.length), (orig.get ⟨i, hi⟩).isTens = false →
        ∃ g, g ∈ non ∧ res[i]? = some g) := by
  induction orig with
  | nil =>
    intro tens non htens hnon
    have h1 : tens = [] :=
      List.eq_nil_of_length_eq_zero (by simpa [getTensorParams] using htens)
    have h2 : non = [] :=
      List.eq_nil_of_length_eq_zero (by simpa [getTensorParams] using hnon)
    subst h1
    subst h2
    refine ⟨[], rfl, rfl, ?_⟩
    intro i hi
    simp at hi
  | cons p rest ih =>
    intro tens non htens hnon
    cases p with
    | tens t =>
      cases tens with
      | nil => simp [getTensorParams] at htens
      | cons g tens2 =>
        have htens2 : tens2.length = (getTensorParams rest).length := by
          simpa [getTensorParams] using htens
        have hnon2 : non.length = rest.length - (getTensorParams rest).length := by
          have hle := getTensorParams_len_le rest
          simp [getTensorParams] at hnon
          omega
        obtain ⟨res, hres, hlen, hidx⟩ := ih tens2 non htens2 hnon2
        refine ⟨g :: res, by simp [reconstructParams, hres], by simp [hlen], ?_⟩
        intro i hi hnt
        cases i with
        | zero => simp [SepParam.isTens] at hnt
        | succ i =>
          obtain ⟨g2, hg2, hres2⟩ := hidx i (by simpa using hi) (by simpa using hnt)
          exact ⟨g2, hg2, by simpa using hres2⟩
    | nont x =>
      have hle := getTensorParams_len_le rest
      cases non with
      | nil =>
        simp [getTensorParams] at hnon
        omega
      | cons g non2 =>
        have htens2 : tens.length = (getTensorParams rest).length := by
          simpa [getTensorParams] using htens
        have hnon2 : non2.length = rest.length - (getTensorParams rest).length := by
          simp [getTensorParams] at hnon
          omega
        obtain ⟨res, hres, hlen, hidx⟩ := ih tens non2 htens2 hnon2
        refine ⟨g :: res, by simp [reconstructParams, hres], by simp [hlen], ?_⟩
        intro i hi hnt
        cases i with
        | zero => exact ⟨g, by simp, by simp⟩
        | succ i =>
          obtain ⟨g2, hg2, hres2⟩ := hidx i (by simpa using hi) (by simpa using hnt)
          exact ⟨g2, by simp [hg2], by simpa using hres2⟩

/-- Claim C2, amended: the gradient tuple assembled for the parameter
positions has exactly one slot per position, and every non-tensor position
holds Python None (an absent gradient) - not an explicit zero. -/
theorem grad_params_one_slot_nontensor_none {T NT : Type}
    (allparams : List (SepParam T NT)) (gradTensor : List (Option T))
    (hlen : gradTensor.length = (getTensorParams allparams).length) :
    ∃ res, assembleGradParams allparams gradTensor = some res ∧
      res.length = allparams.length ∧
      (∀ (i : Nat) (hi : i < allparams.length),
        (allparams.get ⟨i, hi⟩).isTens = false → res[i]? = some none) := by
  obtain ⟨res, hres, hl, hidx⟩ := reconstructParams_spec allparams gradTensor
    (List.replicate (allparams.length - (getTensorParams allparams).length) none)
    hlen (by simp)
  refine ⟨res, hres, hl, ?_⟩
  intro i hi hnt
  obtain ⟨g, hg, hres2⟩ := hidx i hi hnt
  rw [List.eq_of_mem_replicate hg] at hres2
  exact hres2

end GradAssembly

/-- Counterexample for C2 as stated: with parameters
`[tensor, non-tensor]` and the tensor adjoint `some 9`, the assembled
gradient tuple is `[some 9, none]` - the non-tensor position holds Python
None (an absent gradient), which is not an explicit zero gradient. -/
theorem nontensor_grad_is_none_not_zero :
    GradAssembly.assembleGradParams
      [GradAssembly.SepParam.tens (1 : Int), GradAssembly.SepParam.nont "cfg"]
      [some 9] = some [some 9, none] ∧
    (none : Option Int) ≠ some 0 :=
  ⟨rfl, by decide⟩

/-- Witness for C2 amended at a concrete parameter list. -/
theorem grad_params_one_slot_nontensor_none_witness :
    ∃ res, GradAssembly.assembleGradParams
        [GradAssembly.SepParam.tens (1 : Int), GradAssembly.SepParam.nont "cfg",
          GradAssembly.SepParam.tens 2] [some 4, some 5] = some res ∧
      res.length = 3 ∧
      (∀ (i : Nat) (hi : i < ([GradAssembly.SepParam.tens (1 : Int),
          GradAssembly.SepParam.nont "cfg",
          GradAssembly.SepParam.tens 2]).length),
        (([GradAssembly.SepParam.tens (1 : Int), GradAssembly.SepParam.nont "cfg",
          GradAssembly.SepParam.tens 2]).get ⟨i, hi⟩).isTens = false →
        res[i]? = some none) :=
  GradAssembly.grad_params_one_slot_nontensor_none
    [GradAssembly.SepParam.tens (1 : Int), GradAssembly.SepParam.nont "cfg",
      GradAssembly.SepParam.tens 2] [some 4, some 5] (by decide)

